import Mathlib

/-!
# olives: a fluent builder for synthetic HTTP requests

A shallow embedding of `olives.go`.  The builder `Request` accumulates a
method, headers, path parameters, query parameters, a body, cookies and a
deferred error; `Send` registers the handlers with the builder's private
router, constructs the outbound request and dispatches it.

Modelling conventions

* A Go `map[string]V` is an association list with pairwise distinct keys
  (`GoMap V`).  `m[k]` is `GoMap.get`, with the zero value for a missing
  key, and `m[k] = v` is `GoMap.set`.
* The order in which `range` enumerates a map is chosen by the Go runtime.
  It is an explicit argument of every function that ranges over a map
  (`Env.rangePath`, `Env.rangeCookies`).
* Calls into gin, `net/http`, `net/url` and `encoding/json` whose results
  the builder branches on, or hands back, are arguments as well
  (`Env`, and the `marshal` argument of `WithJSON`).  Calls whose results
  are dropped are recorded in the `Event` trace of `Send`.  A panic of
  `router.Handle` ends `Send` and is part of its result; a panic of a
  handler inside `router.ServeHTTP` is outside the model.
* `http.Header.Add`, `http.Header.Get`, `http.Header.Set`,
  `url.Values.Add` and `http.Request.AddCookie` are embedded from the Go
  standard library, the canonical form of a header key
  (`CanonicalMIMEHeaderKey`) and the sanitisers of cookie names and values
  included.
* A pointer receiver that is mutated and returned becomes a function from
  the old `Request` value to the new one.
-/

namespace Olives

/-! ## Go maps -/

/-- A Go `map[string]V`: the list of its entries. -/
abbrev GoMap (V : Type) := List (String × V)

namespace GoMap

/-- The keys of the entries, in list order. -/
def keys {V : Type} (m : GoMap V) : List String := m.map Prod.fst

/-- The well-formedness of a Go map: no key occurs twice. -/
def WF {V : Type} (m : GoMap V) : Prop := m.keys.Nodup

instance decidableWF {V : Type} (m : GoMap V) : Decidable m.WF :=
  inferInstanceAs (Decidable m.keys.Nodup)

/-- The lookup of a key: the first entry under that key, if any. -/
def get? {V : Type} : GoMap V → String → Option V
  | [], _ => none
  | (k', v) :: rest, k => if k' = k then some v else get? rest k

/-- The expression `m[k]` of Go: the value under `k`, or the zero value of
the value type (`zero`) when the key is absent. -/
def get {V : Type} (zero : V) (m : GoMap V) (k : String) : V :=
  (m.get? k).getD zero

/-- The assignment `m[k] = v` of Go: overwrite the entry under `k` when
there is one, add an entry otherwise. -/
def set {V : Type} : GoMap V → String → V → GoMap V
  | [], k, v => [(k, v)]
  | (k', v') :: rest, k, v =>
    if k' = k then (k, v) :: rest else (k', v') :: set rest k v

/-- The statement `m[k] = append(m[k], v)` of Go on a map of slices. -/
def appendAt (m : GoMap (List String)) (k v : String) : GoMap (List String) :=
  m.set k (m.get [] k ++ [v])

/-- A run of `m[k] = append(m[k], v)` statements, one per call, in call
order. -/
def appendAll (m : GoMap (List String)) (calls : List (String × String)) :
    GoMap (List String) :=
  calls.foldl (fun acc c => acc.appendAt c.1 c.2) m

end GoMap

/-! ## Header keys (`net/textproto`) -/

/-- The function `validHeaderFieldByte` of `net/textproto`: the bytes of an
RFC 7230 token, that is digits, ASCII letters and the fifteen characters
`! # $ % & ' * + - . ^ _ | ~` and the backquote (given by their codes).  A
character outside ASCII is encoded by bytes above 127, none of them valid. -/
def validHeaderFieldByte (c : Char) : Bool :=
  let n := c.toNat
  (48 ≤ n && n ≤ 57) || (97 ≤ n && n ≤ 122) || (65 ≤ n && n ≤ 90) ||
    [33, 35, 36, 37, 38, 39, 42, 43, 45, 46, 94, 95, 96, 124, 126].contains n

/-- The canonicalising loop of `canonicalMIMEHeaderKey`: upper case for the
first letter and for a letter after a dash, lower case otherwise. -/
def canonLoop : Bool → List Char → List Char
  | _, [] => []
  | upper, c :: cs =>
    let c1 : Char :=
      if upper && c.isLower then c.toUpper
      else if !upper && c.isUpper then c.toLower
      else c
    c1 :: canonLoop (c1 = '-') cs

/-- The function `canonicalMIMEHeaderKey` of `net/textproto`: a key with a
byte that is not a token byte is returned unchanged (a space included),
any other key goes through the canonicalising loop. -/
def canonicalMIMEHeaderKey (a : List Char) : List Char :=
  if a.all validHeaderFieldByte then canonLoop true a else a

/-- The quick check at the head of `CanonicalMIMEHeaderKey`: scanning from
the left, `false` at the first byte that is not a token byte (the key is
returned as it is), `true` at the first letter in the wrong case (the key is
handed to `canonicalMIMEHeaderKey`), `false` at the end of the key. -/
def needsCanon : Bool → List Char → Bool
  | _, [] => false
  | upper, c :: cs =>
    if !validHeaderFieldByte c then false
    else if upper && c.isLower then true
    else if !upper && c.isUpper then true
    else needsCanon (c = '-') cs

/-- The function `textproto.CanonicalMIMEHeaderKey`, which is
`http.CanonicalHeaderKey`. -/
def CanonicalMIMEHeaderKey (s : String) : String :=
  if needsCanon true s.data then String.mk (canonicalMIMEHeaderKey s.data) else s

/-- The method `http.Header.Add`: the key is canonicalised, then
`h[key] = append(h[key], value)`. -/
def Header.Add (h : GoMap (List String)) (key value : String) : GoMap (List String) :=
  h.appendAt (CanonicalMIMEHeaderKey key) value

/-- The method `url.Values.Add`: `v[key] = append(v[key], value)`. -/
def Values.Add (v : GoMap (List String)) (key value : String) : GoMap (List String) :=
  v.appendAt key value

/-! ## The builder -/

/-- An `error` value of Go, identified by its message. -/
abbrev Error := String

/-- A non-nil `io.Reader`.  `bytes.NewReader(b)` is `bytesReader b`; any
other reader a caller passes in is identified by a tag. -/
inductive Reader where
  | bytesReader (data : List UInt8)
  | other (tag : Nat)
  deriving DecidableEq, Repr

/-- A `gin.HandlerFunc`, identified by a tag. -/
structure HandlerFunc where
  tag : Nat
  deriving DecidableEq, Repr

/-- A route registered with the router by `router.Handle`. -/
structure Route where
  method : String
  pattern : String
  handlers : List HandlerFunc
  deriving DecidableEq, Repr

/-- The type `Request` of `olives.go`.  The router is the list of routes
registered so far; `body` is `none` for the nil reader and `err` is `none`
for the nil error. -/
structure Request where
  router : List Route
  method : String
  headers : GoMap (List String)
  path : GoMap String
  query : GoMap (List String)
  body : Option Reader
  cookies : GoMap (List String)
  err : Option Error
  deriving DecidableEq, Repr

/-- The function `NewRequest`: method `"GET"`, a fresh router, empty maps,
nil body and nil error. -/
def NewRequest : Request :=
  { router := []
    method := "GET"
    headers := []
    path := []
    query := []
    body := none
    cookies := []
    err := none }

/-- The method `WithMethod`: `r.method = method`. -/
def Request.WithMethod (r : Request) (method : String) : Request :=
  { r with method := method }

/-- The method `WithHeader`: `r.headers.Add(key, value)`. -/
def Request.WithHeader (r : Request) (key value : String) : Request :=
  { r with headers := Header.Add r.headers key value }

/-- The method `WithQuery`: `r.query.Add(key, value)`. -/
def Request.WithQuery (r : Request) (key value : String) : Request :=
  { r with query := Values.Add r.query key value }

/-- The method `WithPath`: `r.path[key] = value`. -/
def Request.WithPath (r : Request) (key value : String) : Request :=
  { r with path := r.path.set key value }

/-- The method `WithBody`: `r.body = rdr`, where `rdr` may be the nil
reader. -/
def Request.WithBody (r : Request) (rdr : Option Reader) : Request :=
  { r with body := rdr }

/-- The method `WithBytes`: `r.body = bytes.NewReader(body)`. -/
def Request.WithBytes (r : Request) (body : List UInt8) : Request :=
  { r with body := some (Reader.bytesReader body) }

/-- The method `WithJSON`.  The argument `marshal` stands for
`json.Marshal` on the values of type `α`: on an error the error is stored
in `r.err` and the builder is returned, otherwise the bytes go to
`WithBytes`. -/
def Request.WithJSON {α : Type} (marshal : α → Except Error (List UInt8))
    (r : Request) (body : α) : Request :=
  match marshal body with
  | Except.error e => { r with err := some e }
  | Except.ok bodyBytes => r.WithBytes bodyBytes

/-- The method `WithCookie`:
`r.cookies[name] = append(r.cookies[name], contents)`. -/
def Request.WithCookie (r : Request) (name contents : String) : Request :=
  { r with cookies := r.cookies.appendAt name contents }

/-! ## Dispatch -/

/-- A `*httptest.ResponseRecorder` after the router has served a request. -/
structure ResponseRecorder where
  Code : Nat
  Body : List UInt8
  deriving DecidableEq, Repr

/-- An `http.Cookie` with the two fields `Send` fills in. -/
structure Cookie where
  Name : String
  Value : String
  deriving DecidableEq, Repr

/-- The `*http.Request` that `Send` builds: the arguments handed to
`http.NewRequest` and the header map assigned to `req.Header`, which is the
builder's own map (a Go map is shared, not copied, by the assignment). -/
structure HttpRequest where
  Method : String
  URL : String
  Body : Option Reader
  Header : GoMap (List String)
  deriving DecidableEq, Repr

/-- The method `http.Header.Get`: the first value under the canonical form
of the key, the empty string when there is none. -/
def Header.Get (h : GoMap (List String)) (key : String) : String :=
  match h.get [] (CanonicalMIMEHeaderKey key) with
  | [] => ""
  | v :: _ => v

/-- The method `http.Header.Set`: the canonical form of the key is mapped to
the one value. -/
def Header.Set (h : GoMap (List String)) (key value : String) : GoMap (List String) :=
  h.set (CanonicalMIMEHeaderKey key) [value]

/-- The function `sanitizeCookieName` of `net/http`: a line feed (10) and a
carriage return (13) are replaced by a dash. -/
def sanitizeCookieName (n : String) : String :=
  String.mk (n.data.map (fun c => if c.toNat = 10 || c.toNat = 13 then '-' else c))

/-- The function `validCookieValueByte` of `net/http`: printable ASCII other
than the double quote (34), the semicolon (59) and the backslash (92). -/
def validCookieValueByte (c : Char) : Bool :=
  32 ≤ c.toNat && c.toNat < 127 && c.toNat != 34 && c.toNat != 59 && c.toNat != 92

/-- The function `sanitizeOrWarn` of `net/http`: a string of valid bytes is
returned as it is, from any other string the invalid bytes are dropped. -/
def sanitizeOrWarn (valid : Char → Bool) (v : String) : String :=
  if v.data.all valid then v else String.mk (v.data.filter valid)

/-- The function `sanitizeCookieValue` of `net/http` for a cookie that is
not marked as quoted: the invalid bytes are dropped, and the result is put
between double quotes when it holds a space (32) or a comma (44). -/
def sanitizeCookieValue (v : String) : String :=
  let v1 := sanitizeOrWarn validCookieValueByte v
  if v1.data.any (fun c => c.toNat = 32 || c.toNat = 44) then
    String.mk ([Char.ofNat 34] ++ v1.data ++ [Char.ofNat 34])
  else v1

/-- The method `AddCookie` of `*http.Request`: the sanitised name and value
are joined by `=` and the text is appended, after `"; "`, to the `Cookie`
header when that is not empty, and becomes the `Cookie` header otherwise. -/
def HttpRequest.AddCookie (req : HttpRequest) (c : Cookie) : HttpRequest :=
  let s := sanitizeCookieName c.Name ++ "=" ++ sanitizeCookieValue c.Value
  if Header.Get req.Header "Cookie" ≠ "" then
    { req with Header := Header.Set req.Header "Cookie" (Header.Get req.Header "Cookie" ++ "; " ++ s) }
  else
    { req with Header := Header.Set req.Header "Cookie" s }

/-- The library calls `Send` makes, in program order. -/
inductive Event where
  | handle (method pattern : String) (handlers : List HandlerFunc)
  | newRequest (method url : String) (body : Option Reader)
  | addCookie (c : Cookie)
  | serveHTTP (req : HttpRequest)
  deriving DecidableEq, Repr

/-- What the builder does not decide itself: the order in which `range`
enumerates `r.path` and `r.cookies`, whether `router.Handle` panics on a
route given the routes registered so far (gin does for a method that is not
made of upper-case letters, for no handler, for a pattern it cannot insert
and for a route registered twice), `url.Values.Encode`, the error result of
`http.NewRequest` (`none` for nil) and the recorder left by
`router.ServeHTTP`. -/
structure Env where
  rangePath : GoMap String → List (String × String)
  rangeCookies : GoMap (List String) → List (String × List String)
  handlePanics : List Route → Route → Bool
  encode : GoMap (List String) → String
  newRequest : String → String → Option Reader → Option Error
  serveHTTP : List Route → HttpRequest → ResponseRecorder

/-- An environment whose `range` enumerates every map entry once. -/
def Env.Fair (env : Env) : Prop :=
  (∀ m, (env.rangePath m).Perm m) ∧ (∀ m, (env.rangeCookies m).Perm m)

/-- The method `paths`: both builders start from `"/"`, and one loop over
`r.path` appends `":" ++ param ++ "/"` to the handler path and
`val ++ "/"` to the request path. -/
def Request.paths (env : Env) (r : Request) : String × String :=
  (env.rangePath r.path).foldl
    (fun (acc : String × String) (kv : String × String) =>
      (acc.1 ++ ":" ++ kv.1 ++ "/", acc.2 ++ kv.2 ++ "/"))
    ("/", "/")

/-- The result of `Send`: whether the call panicked instead of returning,
the two return values, the router and the builder's header map after the
call, and the library calls made. -/
structure SendResult where
  panicked : Bool
  w : Option ResponseRecorder
  err : Option Error
  router : List Route
  headers : GoMap (List String)
  trace : List Event
  deriving DecidableEq, Repr

/-- The method `Send`.  The route is registered first, and a panic of
`router.Handle` ends the call; then the request is constructed; when
`http.NewRequest` fails its error is returned, otherwise the builder's
header map becomes the header of the request, every cookie value is added
under its name, which writes the `Cookie` entry of that map, and the request
is served into a fresh recorder. -/
def Request.Send (env : Env) (r : Request) (handlers : List HandlerFunc) : SendResult :=
  let hr := r.paths env
  if env.handlePanics r.router (Route.mk r.method hr.1 handlers) then
    { panicked := true, w := none, err := none, router := r.router, headers := r.headers,
      trace := [Event.handle r.method hr.1 handlers] }
  else
    let router := r.router ++ [Route.mk r.method hr.1 handlers]
    let url := hr.2 ++ "?" ++ env.encode r.query
    match env.newRequest r.method url r.body with
    | some err =>
      { panicked := false, w := none, err := some err, router := router, headers := r.headers,
        trace := [Event.handle r.method hr.1 handlers, Event.newRequest r.method url r.body] }
    | none =>
      let req0 : HttpRequest :=
        { Method := r.method, URL := url, Body := r.body, Header := r.headers }
      let st := (env.rangeCookies r.cookies).foldl
        (fun (st : HttpRequest × List Event) (nv : String × List String) =>
          nv.2.foldl (fun (st : HttpRequest × List Event) (val : String) =>
            (st.1.AddCookie (Cookie.mk nv.1 val), st.2 ++ [Event.addCookie (Cookie.mk nv.1 val)]))
            st)
        (req0, [Event.handle r.method hr.1 handlers, Event.newRequest r.method url r.body])
      { panicked := false, w := some (env.serveHTTP router st.1), err := none, router := router,
        headers := st.1.Header, trace := st.2 ++ [Event.serveHTTP st.1] }

/-! ## Route matching -/

/-- Modelled from the spec: the segments of a path between `/` separators.
The router is a collaborator outside the source; the claim on path
parameters describes its matching segment by segment. -/
def splitSlash : List Char → List (List Char)
  | [] => [[]]
  | c :: cs =>
    if c = '/' then [] :: splitSlash cs
    else match splitSlash cs with
      | [] => [[c]]
      | seg :: segs => (c :: seg) :: segs

/-- Modelled from the spec: matching the segments of a request path against
the segments of a pattern, position by position.  A pattern segment `:name`
binds `name` to the path segment in the same position, any other pattern
segment has to equal the path segment, and both have to end together. -/
def matchSegments : List (List Char) → List (List Char) → Option (List (String × String))
  | [], [] => some []
  | p :: ps, s :: ss =>
    if p.head? = some ':' then
      (matchSegments ps ss).map (fun bs => (String.mk p.tail, String.mk s) :: bs)
    else if p = s then matchSegments ps ss
    else none
  | _, _ => none

/-- Modelled from the spec: the parameter bindings of a request path under a
route pattern, `none` when the path does not match. -/
def matchPath (pattern path : String) : Option (List (String × String)) :=
  matchSegments (splitSlash pattern.data) (splitSlash path.data)

/-- An environment for examples with an empty query: `range` follows the
list order, `router.Handle` panics for a method that is not made of
upper-case letters, for no handler and for a method and pattern registered
before, the query is encoded as the empty string (as `url.Values.Encode`
encodes an empty map), `http.NewRequest` accepts the method and the URL, and
the handlers leave status 200 and no body in the recorder. -/
def sampleEnv : Env :=
  { rangePath := fun m => m
    rangeCookies := fun m => m
    handlePanics := fun routes route =>
      route.method.data.isEmpty || !route.method.data.all Char.isUpper
        || route.handlers.isEmpty
        || routes.any (fun x => x.method = route.method && x.pattern = route.pattern)
    encode := fun _ => ""
    newRequest := fun _ _ _ => none
    serveHTTP := fun _ _ => ResponseRecorder.mk 200 [] }

/-- An environment whose `range` enumerates in reverse list order. -/
def reverseEnv : Env :=
  { sampleEnv with rangePath := List.reverse, rangeCookies := List.reverse }

/-! ## Vocabulary for the claims -/

/-- A fragment of the Go values handed to `WithJSON`, for examples. -/
inductive GoValue where
  | null
  | bool (b : Bool)
  | channel
  deriving DecidableEq, Repr

/-- The function `json.Marshal` on that fragment: `null`, `true` and `false`
are encoded by their names, a channel is not serialisable. -/
def sampleMarshal : GoValue → Except Error (List UInt8)
  | GoValue.null => Except.ok [110, 117, 108, 108]
  | GoValue.bool true => Except.ok [116, 114, 117, 101]
  | GoValue.bool false => Except.ok [102, 97, 108, 115, 101]
  | GoValue.channel => Except.error "json: unsupported type: chan int"

/-- The function `isCookieNameValid` of `net/http`: a cookie name is a
non-empty token. -/
def isCookieNameValid (raw : String) : Bool :=
  !raw.data.isEmpty && raw.data.all validHeaderFieldByte

/-- A cookie value that `sanitizeCookieValue` returns as it is: valid bytes
only, and neither a space (32) nor a comma (44). -/
def isPlainCookieValue (v : String) : Bool :=
  v.data.all (fun c => validCookieValueByte c && c.toNat != 32 && c.toNat != 44)

/-- The text `name=value` of a cookie. -/
def cookieText (c : Cookie) : String :=
  c.Name ++ "=" ++ c.Value

/-- The cookies of a cookie map, entry by entry in list order and, within
an entry, value by value. -/
def cookiesOf (m : GoMap (List String)) : List Cookie :=
  m.flatMap (fun nv => nv.2.map (Cookie.mk nv.1))

/-- One of the three calls that write the body. -/
inductive BodyCall (α : Type) where
  | withBody (rdr : Option Reader)
  | withBytes (body : List UInt8)
  | withJSON (body : α)

/-- The builder after a body call. -/
def BodyCall.apply {α : Type} (marshal : α → Except Error (List UInt8)) (r : Request) :
    BodyCall α → Request
  | BodyCall.withBody rdr => r.WithBody rdr
  | BodyCall.withBytes body => r.WithBytes body
  | BodyCall.withJSON body => r.WithJSON marshal body

/-- A body call succeeds unless it is a `WithJSON` whose value does not
serialise. -/
def BodyCall.succeeds {α : Type} (marshal : α → Except Error (List UInt8)) :
    BodyCall α → Bool
  | BodyCall.withJSON body =>
    match marshal body with
    | Except.ok _ => true
    | Except.error _ => false
  | _ => true

/-- The body a successful body call asks for: the reader given to
`WithBody`, a reader over the bytes given to `WithBytes`, a reader over the
encoding of the value given to `WithJSON`. -/
def BodyCall.asked {α : Type} (marshal : α → Except Error (List UInt8)) :
    BodyCall α → Option Reader
  | BodyCall.withBody rdr => rdr
  | BodyCall.withBytes body => some (Reader.bytesReader body)
  | BodyCall.withJSON body =>
    match marshal body with
    | Except.ok bodyBytes => some (Reader.bytesReader bodyBytes)
    | Except.error _ => none

end Olives

namespace Olives

/-! ## Lemmas on Go maps -/

theorem GoMap.get?_set_same {V : Type} (m : GoMap V) (k : String) (v : V) :
    (m.set k v).get? k = some v := by
  induction m with
  | nil => simp [GoMap.set, GoMap.get?]
  | cons e rest ih =>
    obtain ⟨k1, v1⟩ := e
    by_cases h : k1 = k
    · simp [GoMap.set, GoMap.get?, h]
    · simp [GoMap.set, GoMap.get?, h, ih]

theorem GoMap.get?_set_other {V : Type} (m : GoMap V) (k k1 : String) (v : V) (h : k1 ≠ k) :
    (m.set k v).get? k1 = m.get? k1 := by
  induction m with
  | nil => simp [GoMap.set, GoMap.get?, Ne.symm h]
  | cons e rest ih =>
    obtain ⟨k2, v2⟩ := e
    by_cases h2 : k2 = k
    · subst h2
      simp [GoMap.set, GoMap.get?, Ne.symm h]
    · simp [GoMap.set, GoMap.get?, h2, ih]

theorem GoMap.mem_keys_iff {V : Type} (m : GoMap V) (k : String) :
    k ∈ m.keys ↔ (m.get? k).isSome = true := by
  induction m with
  | nil => simp [GoMap.keys, GoMap.get?]
  | cons e rest ih =>
    obtain ⟨k1, v1⟩ := e
    by_cases h : k1 = k
    · simp [GoMap.keys, GoMap.get?, h]
    · have ih1 : k ∈ List.map Prod.fst rest ↔ (GoMap.get? rest k).isSome = true := ih
      simp [GoMap.keys, GoMap.get?, h, Ne.symm h, ih1]

theorem GoMap.mem_keys_set {V : Type} (m : GoMap V) (k k1 : String) (v : V) :
    k1 ∈ (m.set k v).keys ↔ k1 = k ∨ k1 ∈ m.keys := by
  rw [GoMap.mem_keys_iff, GoMap.mem_keys_iff]
  by_cases h : k1 = k
  · subst h
    simp [GoMap.get?_set_same]
  · simp [GoMap.get?_set_other m k k1 v h, h]

theorem GoMap.WF_set {V : Type} (m : GoMap V) (k : String) (v : V) (h : m.WF) :
    (m.set k v).WF := by
  induction m with
  | nil => simp [GoMap.set, GoMap.WF, GoMap.keys]
  | cons e rest ih =>
    obtain ⟨k1, v1⟩ := e
    have hc : k1 ∉ GoMap.keys rest ∧ GoMap.WF rest := by
      simpa [GoMap.WF, GoMap.keys] using h
    by_cases h1 : k1 = k
    · subst h1
      simpa [GoMap.set, GoMap.WF, GoMap.keys] using h
    · have hn : k1 ∉ (GoMap.set rest k v).keys := by
        rw [GoMap.mem_keys_set]
        exact fun hh => hh.elim h1 hc.1
      have hw : (GoMap.set rest k v).WF := ih hc.2
      simp only [GoMap.set, h1, if_false, GoMap.WF, GoMap.keys, List.map_cons, List.nodup_cons]
      exact ⟨hn, hw⟩

theorem GoMap.set_set {V : Type} (m : GoMap V) (k : String) (v1 v2 : V) :
    (m.set k v1).set k v2 = m.set k v2 := by
  induction m with
  | nil => simp [GoMap.set]
  | cons e rest ih =>
    obtain ⟨k1, w⟩ := e
    by_cases h : k1 = k
    · simp [GoMap.set, h]
    · simp [GoMap.set, h, ih]

theorem GoMap.filter_key_of_get? {V : Type} (m : GoMap V) (k : String) (v : V)
    (hw : m.WF) (hg : m.get? k = some v) :
    m.filter (fun e => decide (e.1 = k)) = [(k, v)] := by
  induction m with
  | nil => simp [GoMap.get?] at hg
  | cons e rest ih =>
    obtain ⟨k1, v1⟩ := e
    have hc : k1 ∉ GoMap.keys rest ∧ GoMap.WF rest := by
      simpa [GoMap.WF, GoMap.keys] using hw
    by_cases h : k1 = k
    · subst h
      have hv : v1 = v := by simpa [GoMap.get?] using hg
      subst hv
      have hnone : ∀ e ∈ rest, ¬ (e.1 = k1) := by
        intro e he heq
        apply hc.1
        rw [← heq]
        exact List.mem_map_of_mem Prod.fst he
      simp only [List.filter_cons, decide_True, if_true, List.cons.injEq, true_and]
      rw [List.filter_eq_nil_iff]
      intro e he
      simpa using hnone e he
    · have hg1 : GoMap.get? rest k = some v := by simpa [GoMap.get?, h] using hg
      simp [List.filter_cons, h, ih hc.2 hg1]

theorem GoMap.get_appendAt_same (m : GoMap (List String)) (k v : String) :
    (m.appendAt k v).get [] k = m.get [] k ++ [v] := by
  simp [GoMap.appendAt, GoMap.get, GoMap.get?_set_same]

theorem GoMap.get?_appendAt_other (m : GoMap (List String)) (k k1 v : String) (h : k1 ≠ k) :
    (m.appendAt k v).get? k1 = m.get? k1 := by
  simp [GoMap.appendAt, GoMap.get?_set_other m k k1 _ h]

theorem GoMap.get_appendAt_other (m : GoMap (List String)) (k k1 v : String) (h : k1 ≠ k) :
    (m.appendAt k v).get [] k1 = m.get [] k1 := by
  simp [GoMap.get, GoMap.get?_appendAt_other m k k1 v h]

theorem GoMap.mem_keys_appendAt (m : GoMap (List String)) (k k1 v : String) :
    k1 ∈ (m.appendAt k v).keys ↔ k1 = k ∨ k1 ∈ m.keys := by
  simp [GoMap.appendAt, GoMap.mem_keys_set]

theorem GoMap.get_appendAll (calls : List (String × String)) (m : GoMap (List String))
    (k : String) :
    (m.appendAll calls).get [] k
      = m.get [] k ++ (calls.filter (fun c => decide (c.1 = k))).map Prod.snd := by
  induction calls generalizing m with
  | nil => simp [GoMap.appendAll]
  | cons c rest ih =>
    have step : GoMap.appendAll m (c :: rest) = GoMap.appendAll (m.appendAt c.1 c.2) rest := rfl
    rw [step, ih]
    by_cases h : c.1 = k
    · subst h
      simp [GoMap.get_appendAt_same, List.filter_cons]
    · simp [GoMap.get_appendAt_other m c.1 k c.2 (Ne.symm h), List.filter_cons, h]

theorem GoMap.mem_keys_appendAll (calls : List (String × String)) (m : GoMap (List String))
    (k : String) :
    k ∈ (m.appendAll calls).keys ↔ k ∈ m.keys ∨ k ∈ calls.map Prod.fst := by
  induction calls generalizing m with
  | nil => simp [GoMap.appendAll]
  | cons c rest ih =>
    have step : GoMap.appendAll m (c :: rest) = GoMap.appendAll (m.appendAt c.1 c.2) rest := rfl
    rw [step, ih, GoMap.mem_keys_appendAt]
    simp only [List.map_cons, List.mem_cons]
    tauto

theorem GoMap.WF_appendAll (calls : List (String × String)) (m : GoMap (List String))
    (h : m.WF) : (m.appendAll calls).WF := by
  induction calls generalizing m with
  | nil => simpa [GoMap.appendAll] using h
  | cons c rest ih =>
    have step : GoMap.appendAll m (c :: rest) = GoMap.appendAll (m.appendAt c.1 c.2) rest := rfl
    rw [step]
    exact ih _ (GoMap.WF_set m c.1 _ h)

theorem GoMap.WF_nil {V : Type} : GoMap.WF ([] : GoMap V) := by
  simp [GoMap.WF, GoMap.keys]

/-! ## Runs of configuration calls -/

theorem query_foldl_withQuery (calls : List (String × String)) (r : Request) :
    (calls.foldl (fun acc c => acc.WithQuery c.1 c.2) r).query = r.query.appendAll calls := by
  induction calls generalizing r with
  | nil => rfl
  | cons c rest ih =>
    simp only [List.foldl_cons]
    rw [ih]
    rfl

theorem headers_foldl_withHeader (calls : List (String × String)) (r : Request) :
    (calls.foldl (fun acc c => acc.WithHeader c.1 c.2) r).headers
      = r.headers.appendAll (calls.map (fun c => (CanonicalMIMEHeaderKey c.1, c.2))) := by
  induction calls generalizing r with
  | nil => rfl
  | cons c rest ih =>
    simp only [List.foldl_cons]
    rw [ih]
    rfl

theorem cookies_foldl_withCookie (calls : List (String × String)) (r : Request) :
    (calls.foldl (fun acc c => acc.WithCookie c.1 c.2) r).cookies
      = r.cookies.appendAll calls := by
  induction calls generalizing r with
  | nil => rfl
  | cons c rest ih =>
    simp only [List.foldl_cons]
    rw [ih]
    rfl

/-! ## Claims on the configuration calls -/

/-- C7: for every string `m`, `WithMethod m` stores exactly `m` as the method
(the verb `"SILLY"` included) and changes no other field, and a fresh builder
has the method `"GET"`. -/
theorem withMethod_sets_method_verbatim (r : Request) (m : String) :
    (r.WithMethod m).method = m
    ∧ (r.WithMethod m).headers = r.headers
    ∧ (r.WithMethod m).path = r.path
    ∧ (r.WithMethod m).query = r.query
    ∧ (r.WithMethod m).body = r.body
    ∧ (r.WithMethod m).cookies = r.cookies
    ∧ (r.WithMethod m).err = r.err
    ∧ (r.WithMethod m).router = r.router
    ∧ (NewRequest.WithMethod "SILLY").method = "SILLY"
    ∧ NewRequest.method = "GET" :=
  ⟨rfl, rfl, rfl, rfl, rfl, rfl, rfl, rfl, rfl, rfl⟩

/-- C8: on a builder whose path map is well formed, `WithPath name value`
maps `name` to `value`, keeps the keys unique with one entry for `name`,
leaves every other path parameter and every other field unchanged, and a
second `WithPath` on the same name overwrites the first. -/
theorem withPath_overwrites (r : Request) (name value : String) (hwf : r.path.WF) :
    (r.WithPath name value).path.get? name = some value
    ∧ (r.WithPath name value).path.WF
    ∧ (r.WithPath name value).path.filter (fun e => decide (e.1 = name)) = [(name, value)]
    ∧ (∀ other, other ≠ name → (r.WithPath name value).path.get? other = r.path.get? other)
    ∧ (∀ v1, ((r.WithPath name v1).WithPath name value).path = (r.WithPath name value).path)
    ∧ (r.WithPath name value).method = r.method
    ∧ (r.WithPath name value).headers = r.headers
    ∧ (r.WithPath name value).query = r.query
    ∧ (r.WithPath name value).body = r.body
    ∧ (r.WithPath name value).cookies = r.cookies
    ∧ (r.WithPath name value).err = r.err
    ∧ (r.WithPath name value).router = r.router := by
  have hget : (r.WithPath name value).path.get? name = some value :=
    GoMap.get?_set_same r.path name value
  have hw : (r.WithPath name value).path.WF := GoMap.WF_set r.path name value hwf
  refine ⟨hget, hw, GoMap.filter_key_of_get? _ name value hw hget, ?_, ?_,
    rfl, rfl, rfl, rfl, rfl, rfl, rfl⟩
  · intro other hne
    exact GoMap.get?_set_other r.path name other value hne
  · intro v1
    simp [Request.WithPath, GoMap.set_set]

/-- C8, at a concrete input: `WithPath "id" "1"` then `WithPath "id" "2"` on
a builder that already holds the parameter `kind`. -/
theorem withPath_overwrites_witness :
    ((NewRequest.WithPath "kind" "olive").WithPath "id" "1").path.WF
    ∧ (((NewRequest.WithPath "kind" "olive").WithPath "id" "1").WithPath "id" "2").path
        = [("kind", "olive"), ("id", "2")]
    ∧ (((NewRequest.WithPath "kind" "olive").WithPath "id" "1").WithPath "id" "2").path.filter
        (fun e => decide (e.1 = "id")) = [("id", "2")] :=
  ⟨by decide, by decide,
    (withPath_overwrites ((NewRequest.WithPath "kind" "olive").WithPath "id" "1") "id" "2"
      (by decide)).2.2.1⟩

/-- C6: `WithQuery name value` appends `value` at the end of the values
stored for `name`, leaves every other name and every other field as they
were, and after any run of `WithQuery` calls on a fresh builder the query map
is well formed, holds under each key the values supplied for it in call
order, and has exactly the supplied names as keys. -/
theorem withQuery_appends_in_call_order (r : Request) (name value : String) :
    (r.WithQuery name value).query.get [] name = r.query.get [] name ++ [value]
    ∧ (∀ other, other ≠ name →
        (r.WithQuery name value).query.get? other = r.query.get? other)
    ∧ (r.WithQuery name value).method = r.method
    ∧ (r.WithQuery name value).headers = r.headers
    ∧ (r.WithQuery name value).path = r.path
    ∧ (r.WithQuery name value).body = r.body
    ∧ (r.WithQuery name value).cookies = r.cookies
    ∧ (r.WithQuery name value).err = r.err
    ∧ (∀ calls : List (String × String),
        (calls.foldl (fun acc c => acc.WithQuery c.1 c.2) NewRequest).query.WF
        ∧ (∀ k, (calls.foldl (fun acc c => acc.WithQuery c.1 c.2) NewRequest).query.get [] k
            = (calls.filter (fun c => decide (c.1 = k))).map Prod.snd)
        ∧ (∀ k, k ∈ (calls.foldl (fun acc c => acc.WithQuery c.1 c.2) NewRequest).query.keys
            ↔ k ∈ calls.map Prod.fst)) := by
  refine ⟨GoMap.get_appendAt_same r.query name value, ?_, rfl, rfl, rfl, rfl, rfl, rfl, ?_⟩
  · intro other hne
    exact GoMap.get?_appendAt_other r.query name other value hne
  · intro calls
    rw [query_foldl_withQuery]
    refine ⟨GoMap.WF_appendAll calls _ GoMap.WF_nil, ?_, ?_⟩
    · intro k
      rw [GoMap.get_appendAll]
      simp [NewRequest, GoMap.get, GoMap.get?]
    · intro k
      rw [GoMap.mem_keys_appendAll]
      simp [NewRequest, GoMap.keys]

/-- C5, as stated, fails: after `WithHeader "x-token" "abc"` on a fresh
builder nothing is stored for the name `x-token`; the value sits under the
name `X-Token`, which was never supplied. -/
theorem withHeader_lowercase_name_counterexample :
    (NewRequest.WithHeader "x-token" "abc").headers = [("X-Token", ["abc"])]
    ∧ (NewRequest.WithHeader "x-token" "abc").headers.get [] "x-token" = []
    ∧ (NewRequest.WithHeader "x-token" "abc").headers.get [] "x-token"
        ≠ NewRequest.headers.get [] "x-token" ++ ["abc"]
    ∧ (NewRequest.WithHeader "x-token" "abc").headers.keys = ["X-Token"] := by
  decide

/-- C5, amended: `WithHeader name value` appends `value` at the end of the
values stored under the canonical form of `name`, leaves every other key and
every other field as they were, and after any run of `WithHeader` calls on a
fresh builder the header map is well formed, holds under each key the values
supplied for the names whose canonical form is that key, in call order, and
its keys are exactly the canonical forms of the supplied names. -/
theorem withHeader_appends_under_canonical_key (r : Request) (name value : String) :
    (r.WithHeader name value).headers.get [] (CanonicalMIMEHeaderKey name)
      = r.headers.get [] (CanonicalMIMEHeaderKey name) ++ [value]
    ∧ (∀ other, other ≠ CanonicalMIMEHeaderKey name →
        (r.WithHeader name value).headers.get? other = r.headers.get? other)
    ∧ (r.WithHeader name value).method = r.method
    ∧ (r.WithHeader name value).path = r.path
    ∧ (r.WithHeader name value).query = r.query
    ∧ (r.WithHeader name value).body = r.body
    ∧ (r.WithHeader name value).cookies = r.cookies
    ∧ (r.WithHeader name value).err = r.err
    ∧ (∀ calls : List (String × String),
        (calls.foldl (fun acc c => acc.WithHeader c.1 c.2) NewRequest).headers.WF
        ∧ (∀ k, (calls.foldl (fun acc c => acc.WithHeader c.1 c.2) NewRequest).headers.get [] k
            = (calls.filter (fun c => decide (CanonicalMIMEHeaderKey c.1 = k))).map Prod.snd)
        ∧ (∀ k, k ∈ (calls.foldl (fun acc c => acc.WithHeader c.1 c.2) NewRequest).headers.keys
            ↔ k ∈ calls.map (fun c => CanonicalMIMEHeaderKey c.1))) := by
  refine ⟨GoMap.get_appendAt_same r.headers _ value, ?_, rfl, rfl, rfl, rfl, rfl, rfl, ?_⟩
  · intro other hne
    exact GoMap.get?_appendAt_other r.headers _ other value hne
  · intro calls
    rw [headers_foldl_withHeader]
    refine ⟨GoMap.WF_appendAll _ _ GoMap.WF_nil, ?_, ?_⟩
    · intro k
      rw [GoMap.get_appendAll]
      simp [NewRequest, GoMap.get, GoMap.get?, List.filter_map, Function.comp_def]
    · intro k
      rw [GoMap.mem_keys_appendAll]
      simp [NewRequest, GoMap.keys, Function.comp_def]

/-- C5, amended, at a concrete input: two values for `X-Treats`, one of them
supplied under a lower-case name. -/
theorem withHeader_appends_under_canonical_key_witness :
    ((NewRequest.WithHeader "X-Treats" "gelato").WithHeader "x-treats" "cake").headers
        = [("X-Treats", ["gelato", "cake"])]
    ∧ ((NewRequest.WithHeader "X-Treats" "gelato").WithHeader "x-treats" "cake").headers.get []
        (CanonicalMIMEHeaderKey "x-treats")
      = (NewRequest.WithHeader "X-Treats" "gelato").headers.get []
        (CanonicalMIMEHeaderKey "x-treats") ++ ["cake"] :=
  ⟨by decide,
    (withHeader_appends_under_canonical_key (NewRequest.WithHeader "X-Treats" "gelato")
      "x-treats" "cake").1⟩

/-- C4, as stated, fails: `WithJSON` on a channel after `WithBytes` leaves
the earlier body in place, so the body is not unset. -/
theorem withJSON_failure_keeps_body_counterexample :
    sampleMarshal GoValue.channel = Except.error "json: unsupported type: chan int"
    ∧ ((NewRequest.WithBytes [1, 2, 3]).WithJSON sampleMarshal GoValue.channel).body
        = some (Reader.bytesReader [1, 2, 3])
    ∧ ((NewRequest.WithBytes [1, 2, 3]).WithJSON sampleMarshal GoValue.channel).body ≠ none :=
  ⟨rfl, by decide, by decide⟩

/-- C4, amended: when the serialisation of the value fails, `WithJSON`
returns the builder with the failure stored as the deferred error and with
the body and every other field as they were before the call (so the body is
unset when none had been set); when it succeeds, the body is a reader over
the encoded bytes and the deferred error and every other field are as they
were. -/
theorem withJSON_defers_failure {α : Type} (marshal : α → Except Error (List UInt8))
    (r : Request) (v : α) :
    (∀ e, marshal v = Except.error e →
      r.WithJSON marshal v = { r with err := some e }
      ∧ (r.WithJSON marshal v).err = some e
      ∧ (r.WithJSON marshal v).body = r.body
      ∧ (r.body = none → (r.WithJSON marshal v).body = none))
    ∧ (∀ b, marshal v = Except.ok b →
      r.WithJSON marshal v = { r with body := some (Reader.bytesReader b) }
      ∧ (r.WithJSON marshal v).body = some (Reader.bytesReader b)
      ∧ (r.WithJSON marshal v).err = r.err) := by
  constructor
  · intro e h
    simp [Request.WithJSON, h]
  · intro b h
    simp [Request.WithJSON, Request.WithBytes, h]

/-- C4, amended, at concrete inputs: a channel on a fresh builder, and
`null` on a fresh builder. -/
theorem withJSON_defers_failure_witness :
    ((NewRequest.WithJSON sampleMarshal GoValue.channel).err
        = some "json: unsupported type: chan int"
      ∧ (NewRequest.WithJSON sampleMarshal GoValue.channel).body = none)
    ∧ ((NewRequest.WithJSON sampleMarshal GoValue.null).body
        = some (Reader.bytesReader [110, 117, 108, 108])
      ∧ (NewRequest.WithJSON sampleMarshal GoValue.null).err = none) :=
  ⟨⟨((withJSON_defers_failure sampleMarshal NewRequest GoValue.channel).1 _ rfl).2.1,
     ((withJSON_defers_failure sampleMarshal NewRequest GoValue.channel).1 _ rfl).2.2.2 rfl⟩,
   ⟨((withJSON_defers_failure sampleMarshal NewRequest GoValue.null).2 _ rfl).2.1,
     ((withJSON_defers_failure sampleMarshal NewRequest GoValue.null).2 _ rfl).2.2⟩⟩

/-! ## Claims on the body -/

theorem BodyCall.apply_of_succeeds {α : Type} (marshal : α → Except Error (List UInt8))
    (r : Request) (c : BodyCall α) (h : c.succeeds marshal = true) :
    c.apply marshal r = { r with body := c.asked marshal } := by
  cases c with
  | withBody rdr => rfl
  | withBytes body => rfl
  | withJSON body =>
    cases hm : marshal body with
    | error e => simp [BodyCall.succeeds, hm] at h
    | ok bodyBytes =>
      simp [BodyCall.apply, BodyCall.asked, Request.WithJSON, Request.WithBytes, hm]

theorem BodyCall.foldl_apply {α : Type} (marshal : α → Except Error (List UInt8))
    (calls : List (BodyCall α)) (r : Request)
    (h : ∀ x ∈ calls, x.succeeds marshal = true) :
    ∃ b, calls.foldl (BodyCall.apply marshal) r = { r with body := b } := by
  induction calls generalizing r with
  | nil => exact ⟨r.body, rfl⟩
  | cons c rest ih =>
    have hc : c.succeeds marshal = true := h c (List.mem_cons_self c rest)
    have hrest : ∀ x ∈ rest, x.succeeds marshal = true :=
      fun x hx => h x (List.mem_cons_of_mem c hx)
    obtain ⟨b, hb⟩ := ih (c.apply marshal r) hrest
    refine ⟨b, ?_⟩
    rw [List.foldl_cons, hb, BodyCall.apply_of_succeeds marshal r c hc]

/-- C10: after any run of `WithBody`, `WithBytes` and successful `WithJSON`
calls the body is the one the last call asked for (for `WithBytes` a reader
over exactly the given bytes), whatever body was set before, and every field
other than the body is as it was before the run. -/
theorem body_last_write_wins {α : Type} (marshal : α → Except Error (List UInt8))
    (r : Request) (calls : List (BodyCall α)) (last : BodyCall α)
    (hall : ∀ x ∈ calls ++ [last], x.succeeds marshal = true) :
    ((calls ++ [last]).foldl (BodyCall.apply marshal) r).body = last.asked marshal
    ∧ (calls ++ [last]).foldl (BodyCall.apply marshal) r
        = { r with body := last.asked marshal }
    ∧ (∀ rdr, (r.WithBody rdr).body = rdr)
    ∧ (∀ bytes, (r.WithBytes bytes).body = some (Reader.bytesReader bytes))
    ∧ (∀ v bytes, marshal v = Except.ok bytes →
        (r.WithJSON marshal v).body = some (Reader.bytesReader bytes)) := by
  have hcalls : ∀ x ∈ calls, x.succeeds marshal = true :=
    fun x hx => hall x (List.mem_append_left _ hx)
  have hlast : last.succeeds marshal = true :=
    hall last (List.mem_append_right _ (List.mem_singleton_self last))
  obtain ⟨b, hb⟩ := BodyCall.foldl_apply marshal calls r hcalls
  have hfold : (calls ++ [last]).foldl (BodyCall.apply marshal) r
      = { r with body := last.asked marshal } := by
    rw [List.foldl_append, hb]
    simp only [List.foldl_cons, List.foldl_nil]
    rw [BodyCall.apply_of_succeeds marshal _ last hlast]
  refine ⟨by rw [hfold], hfold, fun _ => rfl, fun _ => rfl, ?_⟩
  intro v bytes hv
  simp [Request.WithJSON, Request.WithBytes, hv]

/-- C10, at a concrete input: `WithBody`, `WithJSON` of `true`, then
`WithBytes`, on a builder that already carries a header. -/
theorem body_last_write_wins_witness :
    ([BodyCall.withBody (some (Reader.other 7)), BodyCall.withJSON (GoValue.bool true),
        BodyCall.withBytes [1, 2]].foldl (BodyCall.apply sampleMarshal)
        (NewRequest.WithHeader "X-Token" "abc")).body = some (Reader.bytesReader [1, 2])
    ∧ [BodyCall.withBody (some (Reader.other 7)), BodyCall.withJSON (GoValue.bool true),
        BodyCall.withBytes [1, 2]].foldl (BodyCall.apply sampleMarshal)
        (NewRequest.WithHeader "X-Token" "abc")
      = { NewRequest.WithHeader "X-Token" "abc" with body := some (Reader.bytesReader [1, 2]) } :=
  ⟨(body_last_write_wins sampleMarshal (NewRequest.WithHeader "X-Token" "abc")
      [BodyCall.withBody (some (Reader.other 7)), BodyCall.withJSON (GoValue.bool true)]
      (BodyCall.withBytes [1, 2]) (by decide)).1,
   (body_last_write_wins sampleMarshal (NewRequest.WithHeader "X-Token" "abc")
      [BodyCall.withBody (some (Reader.other 7)), BodyCall.withJSON (GoValue.bool true)]
      (BodyCall.withBytes [1, 2]) (by decide)).2.1⟩

/-! ## Claims on the paths -/

theorem join_cons (a : String) (l : List String) :
    String.join (a :: l) = a ++ String.join l := by
  apply String.ext
  simp [String.join_eq]

theorem paths_foldl (l : List (String × String)) (hp rp : String) :
    l.foldl
        (fun (acc : String × String) (kv : String × String) =>
          (acc.1 ++ ":" ++ kv.1 ++ "/", acc.2 ++ kv.2 ++ "/"))
        (hp, rp)
      = (hp ++ String.join (l.map (fun kv => ":" ++ kv.1 ++ "/")),
         rp ++ String.join (l.map (fun kv => kv.2 ++ "/"))) := by
  induction l generalizing hp rp with
  | nil => simp [String.join]
  | cons kv rest ih =>
    rw [List.foldl_cons, ih]
    simp only [List.map_cons, join_cons, String.append_assoc]

/-- C2: whatever order `range` enumerates the path parameters in, `paths`
returns `"/"` followed by `":" ++ name ++ "/"` for each pair and `"/"`
followed by `value ++ "/"` for each pair, both over that one enumeration;
with no path parameter both are `"/"`, and for the one parameter `id` with
value `42` they are `"/:id/"` and `"/42/"`. -/
theorem paths_follow_one_enumeration (env : Env) (r : Request) (hfair : env.Fair) :
    (env.rangePath r.path).Perm r.path
    ∧ r.paths env
        = ("/" ++ String.join ((env.rangePath r.path).map (fun kv => ":" ++ kv.1 ++ "/")),
           "/" ++ String.join ((env.rangePath r.path).map (fun kv => kv.2 ++ "/")))
    ∧ (r.path = [] → r.paths env = ("/", "/"))
    ∧ (r.path = [("id", "42")] → r.paths env = ("/:id/", "/42/")) := by
  have hperm := hfair.1 r.path
  refine ⟨hperm, paths_foldl _ _ _, ?_, ?_⟩
  · intro h
    have hnil : env.rangePath r.path = [] := List.Perm.eq_nil (h ▸ hperm)
    simp [Request.paths, hnil]
  · intro h
    have hone : env.rangePath r.path = [("id", "42")] := List.perm_singleton.mp (h ▸ hperm)
    simp only [Request.paths, hone, List.foldl_cons, List.foldl_nil]
    decide

/-- C2, at a concrete input: two path parameters, enumerated in reverse
insertion order. -/
theorem paths_follow_one_enumeration_witness :
    reverseEnv.Fair
    ∧ ((NewRequest.WithPath "a" "1").WithPath "b" "2").paths reverseEnv = ("/:b/:a/", "/2/1/")
    ∧ ((NewRequest.WithPath "a" "1").WithPath "b" "2").paths reverseEnv
        = ("/" ++ String.join
            ((reverseEnv.rangePath ((NewRequest.WithPath "a" "1").WithPath "b" "2").path).map
              (fun kv => ":" ++ kv.1 ++ "/")),
           "/" ++ String.join
            ((reverseEnv.rangePath ((NewRequest.WithPath "a" "1").WithPath "b" "2").path).map
              (fun kv => kv.2 ++ "/"))) :=
  ⟨⟨fun m => List.reverse_perm m, fun m => List.reverse_perm m⟩, by decide,
    (paths_follow_one_enumeration reverseEnv ((NewRequest.WithPath "a" "1").WithPath "b" "2")
      ⟨fun m => List.reverse_perm m, fun m => List.reverse_perm m⟩).2.1⟩

/-! ## Claims on route matching -/

theorem splitSlash_segment (seg rest : List Char) (h : '/' ∉ seg) :
    splitSlash (seg ++ '/' :: rest) = seg :: splitSlash rest := by
  induction seg with
  | nil => simp [splitSlash]
  | cons c cs ih =>
    have hc : c ≠ '/' := fun hh => h (hh ▸ List.mem_cons_self c cs)
    have hcs : '/' ∉ cs := fun hh => h (List.mem_cons_of_mem c hh)
    simp [splitSlash, hc, ih hcs]

theorem splitSlash_segments (segs : List (List Char)) (h : ∀ seg ∈ segs, '/' ∉ seg) :
    splitSlash (segs.map (fun seg => seg ++ ['/'])).flatten = segs ++ [[]] := by
  induction segs with
  | nil => simp [splitSlash]
  | cons seg rest ih =>
    have h1 : '/' ∉ seg := h seg (List.mem_cons_self seg rest)
    have h2 : ∀ x ∈ rest, '/' ∉ x := fun x hx => h x (List.mem_cons_of_mem seg hx)
    simp only [List.map_cons, List.flatten_cons, List.append_assoc, List.singleton_append,
      List.cons_append]
    rw [splitSlash_segment seg _ h1, List.nil_append, ih h2]

theorem matchSegments_params (l : List (String × String)) :
    matchSegments (l.map (fun kv => ':' :: kv.1.data) ++ [[]]) (l.map (fun kv => kv.2.data) ++ [[]])
      = some l := by
  induction l with
  | nil => simp [matchSegments]
  | cons kv rest ih =>
    simp [matchSegments, ih]

theorem paths_data (l : List (String × String)) :
    ("/" ++ String.join (l.map (fun kv => ":" ++ kv.1 ++ "/"))).data
        = '/' :: ((l.map (fun kv => ':' :: kv.1.data)).map (fun seg => seg ++ ['/'])).flatten
    ∧ ("/" ++ String.join (l.map (fun kv => kv.2 ++ "/"))).data
        = '/' :: ((l.map (fun kv => kv.2.data)).map (fun seg => seg ++ ['/'])).flatten := by
  simp [String.join_eq, Function.comp_def]

theorem GoMap.get?_eq_some_iff {V : Type} (m : GoMap V) (k : String) (v : V) (hw : m.WF) :
    m.get? k = some v ↔ (k, v) ∈ m := by
  induction m with
  | nil => simp [GoMap.get?]
  | cons e rest ih =>
    obtain ⟨k1, v1⟩ := e
    have hc : k1 ∉ GoMap.keys rest ∧ GoMap.WF rest := by
      simpa [GoMap.WF, GoMap.keys] using hw
    by_cases h : k1 = k
    · subst h
      have hnot : (k1, v) ∉ rest := fun hh => hc.1 (List.mem_map_of_mem Prod.fst hh)
      simp [GoMap.get?, hnot, eq_comm]
    · simp [GoMap.get?, h, Ne.symm h, ih hc.2]

theorem GoMap.get?_perm {V : Type} (m1 m2 : GoMap V) (k : String) (hp : m1.Perm m2)
    (hw : m2.WF) : m1.get? k = m2.get? k := by
  have hw1 : m1.WF := (List.Perm.nodup_iff (hp.map Prod.fst)).mpr hw
  apply Option.ext
  intro v
  simp only [Option.mem_def]
  rw [GoMap.get?_eq_some_iff m1 k v hw1, GoMap.get?_eq_some_iff m2 k v hw]
  exact hp.mem_iff

/-- C3, as stated, fails: for the path parameter `file` with the value
`a/b` the request path `/a/b/` has one segment more than the pattern
`/:file/`, and the match yields no bindings. -/
theorem path_value_with_slash_counterexample :
    (NewRequest.WithPath "file" "a/b").path = [("file", "a/b")]
    ∧ (NewRequest.WithPath "file" "a/b").paths sampleEnv = ("/:file/", "/a/b/")
    ∧ matchPath ((NewRequest.WithPath "file" "a/b").paths sampleEnv).1
        ((NewRequest.WithPath "file" "a/b").paths sampleEnv).2 = none := by
  decide

/-- C3, amended: for every well-formed path-parameter map in which no name
and no value contains `/`, and every order of enumeration, matching the
request path of `paths` against the handler path of `paths` segment by
segment succeeds, and the bindings are the enumerated pairs: a permutation
of the entries of the map that gives, under every key, what the map gives. -/
theorem matched_params_equal_mapping (env : Env) (r : Request) (hfair : env.Fair)
    (hwf : r.path.WF)
    (hslash : ∀ kv ∈ r.path, '/' ∉ kv.1.data ∧ '/' ∉ kv.2.data) :
    matchPath (r.paths env).1 (r.paths env).2 = some (env.rangePath r.path)
    ∧ (env.rangePath r.path).Perm r.path
    ∧ (∀ k, GoMap.get? (env.rangePath r.path) k = r.path.get? k) := by
  have hperm := hfair.1 r.path
  refine ⟨?_, hperm, fun k => GoMap.get?_perm _ _ k hperm hwf⟩
  have hs : ∀ kv ∈ env.rangePath r.path, '/' ∉ kv.1.data ∧ '/' ∉ kv.2.data :=
    fun kv hkv => hslash kv (hperm.mem_iff.mp hkv)
  have hpaths : r.paths env = _ := paths_foldl (env.rangePath r.path) "/" "/"
  have hd := paths_data (env.rangePath r.path)
  unfold matchPath
  rw [hpaths]
  simp only []
  rw [hd.1, hd.2]
  have e1 : splitSlash ('/' :: ((List.map (fun kv => ':' :: kv.1.data)
      (env.rangePath r.path)).map (fun seg => seg ++ ['/'])).flatten)
      = [] :: (List.map (fun kv => ':' :: kv.1.data) (env.rangePath r.path) ++ [[]]) := by
    rw [← splitSlash_segments]
    · simp [splitSlash]
    · intro seg hseg
      obtain ⟨kv, hkv, rfl⟩ := List.mem_map.mp hseg
      simp [(hs kv hkv).1]
  have e2 : splitSlash ('/' :: ((List.map (fun kv => kv.2.data)
      (env.rangePath r.path)).map (fun seg => seg ++ ['/'])).flatten)
      = [] :: (List.map (fun kv => kv.2.data) (env.rangePath r.path) ++ [[]]) := by
    rw [← splitSlash_segments]
    · simp [splitSlash]
    · intro seg hseg
      obtain ⟨kv, hkv, rfl⟩ := List.mem_map.mp hseg
      exact (hs kv hkv).2
  rw [e1, e2]
  simp [matchSegments, matchSegments_params]

/-- C3, amended, at a concrete input: the two path parameters of the test
suite, enumerated in reverse insertion order. -/
theorem matched_params_equal_mapping_witness :
    matchPath
        (((NewRequest.WithPath "cookies" "girl-scout").WithPath "gelato" "grape").paths
          reverseEnv).1
        (((NewRequest.WithPath "cookies" "girl-scout").WithPath "gelato" "grape").paths
          reverseEnv).2
      = some [("gelato", "grape"), ("cookies", "girl-scout")] :=
  (matched_params_equal_mapping reverseEnv
    ((NewRequest.WithPath "cookies" "girl-scout").WithPath "gelato" "grape")
    ⟨fun m => List.reverse_perm m, fun m => List.reverse_perm m⟩ (by decide) (by decide)).1

/-! ## Claims on dispatch -/

theorem token_byte_codes (c : Char) (h : validHeaderFieldByte c = true) :
    c.toNat ≠ 10 ∧ c.toNat ≠ 13 ∧ c ≠ '=' := by
  refine ⟨?_, ?_, ?_⟩
  · intro hc
    simp [validHeaderFieldByte, hc] at h
  · intro hc
    simp [validHeaderFieldByte, hc] at h
  · intro hc
    subst hc
    exact absurd h (by decide)

theorem sanitizeCookieName_of_valid (n : String) (h : isCookieNameValid n = true) :
    sanitizeCookieName n = n := by
  have hall : ∀ c ∈ n.data, validHeaderFieldByte c = true := by
    simp only [isCookieNameValid, Bool.and_eq_true, List.all_eq_true] at h
    exact h.2
  apply String.ext
  simp only [sanitizeCookieName]
  conv_rhs => rw [← List.map_id n.data]
  apply List.map_congr_left
  intro c hc
  have := token_byte_codes c (hall c hc)
  simp [this.1, this.2.1]

theorem sanitizeCookieValue_of_plain (v : String) (h : isPlainCookieValue v = true) :
    sanitizeCookieValue v = v := by
  have hall : ∀ c ∈ v.data,
      validCookieValueByte c = true ∧ c.toNat ≠ 32 ∧ c.toNat ≠ 44 := by
    simp only [isPlainCookieValue, List.all_eq_true, Bool.and_eq_true, bne_iff_ne] at h
    intro c hc
    exact ⟨(h c hc).1.1, (h c hc).1.2, (h c hc).2⟩
  have h1 : v.data.all validCookieValueByte = true := by
    rw [List.all_eq_true]
    exact fun c hc => (hall c hc).1
  have h2 : v.data.any (fun c => c.toNat = 32 || c.toNat = 44) = false := by
    rw [List.any_eq_false]
    intro c hc
    simp [(hall c hc).2.1, (hall c hc).2.2]
  simp [sanitizeCookieValue, sanitizeOrWarn, h1, h2]

theorem name_without_equals (n : String) (h : isCookieNameValid n = true) : '=' ∉ n.data := by
  simp only [isCookieNameValid, Bool.and_eq_true, List.all_eq_true] at h
  intro hmem
  exact (token_byte_codes '=' (h.2 '=' hmem)).2.2 rfl

theorem header_get_set (h : GoMap (List String)) (value : String) :
    Header.Get (Header.Set h "Cookie" value) "Cookie" = value := by
  simp [Header.Get, Header.Set, GoMap.get, GoMap.get?_set_same]

theorem header_set_set (h : GoMap (List String)) (v1 v2 : String) :
    Header.Set (Header.Set h "Cookie" v1) "Cookie" v2 = Header.Set h "Cookie" v2 := by
  simp [Header.Set, GoMap.set_set]

theorem addCookie_header (req : HttpRequest) (c : Cookie) :
    (req.AddCookie c).Header
      = Header.Set req.Header "Cookie"
          (if Header.Get req.Header "Cookie" ≠ "" then
            Header.Get req.Header "Cookie" ++ "; "
              ++ (sanitizeCookieName c.Name ++ "=" ++ sanitizeCookieValue c.Value)
          else sanitizeCookieName c.Name ++ "=" ++ sanitizeCookieValue c.Value)
    ∧ (req.AddCookie c).Method = req.Method
    ∧ (req.AddCookie c).URL = req.URL
    ∧ (req.AddCookie c).Body = req.Body := by
  by_cases h : Header.Get req.Header "Cookie" = ""
  · simp [HttpRequest.AddCookie, h]
  · simp [HttpRequest.AddCookie, h]

theorem addCookie_foldl (cs : List Cookie) (c : Cookie) (req : HttpRequest) :
    ((c :: cs).foldl HttpRequest.AddCookie req).Header
      = Header.Set req.Header "Cookie"
          ((c :: cs).foldl
            (fun (acc : String) (x : Cookie) =>
              if acc ≠ "" then
                acc ++ "; " ++ (sanitizeCookieName x.Name ++ "=" ++ sanitizeCookieValue x.Value)
              else sanitizeCookieName x.Name ++ "=" ++ sanitizeCookieValue x.Value)
            (Header.Get req.Header "Cookie"))
    ∧ ((c :: cs).foldl HttpRequest.AddCookie req).Method = req.Method
    ∧ ((c :: cs).foldl HttpRequest.AddCookie req).URL = req.URL
    ∧ ((c :: cs).foldl HttpRequest.AddCookie req).Body = req.Body := by
  induction cs generalizing c req with
  | nil =>
    simpa using addCookie_header req c
  | cons c1 rest ih =>
    have h0 := addCookie_header req c
    have h1 := ih c1 (req.AddCookie c)
    rw [List.foldl_cons]
    refine ⟨?_, h1.2.1.trans h0.2.1, h1.2.2.1.trans h0.2.2.1, h1.2.2.2.trans h0.2.2.2⟩
    rw [h1.1, h0.1, header_set_set, header_get_set]
    rfl

theorem send_cookie_loop (l : List (String × List String)) (req : HttpRequest)
    (tr : List Event) :
    l.foldl
        (fun (st : HttpRequest × List Event) (nv : String × List String) =>
          nv.2.foldl (fun (st : HttpRequest × List Event) (val : String) =>
            (st.1.AddCookie (Cookie.mk nv.1 val), st.2 ++ [Event.addCookie (Cookie.mk nv.1 val)]))
            st)
        (req, tr)
      = ((cookiesOf l).foldl HttpRequest.AddCookie req,
          tr ++ (cookiesOf l).map Event.addCookie) := by
  have inner : ∀ (name : String) (vals : List String) (req : HttpRequest) (tr : List Event),
      vals.foldl (fun (st : HttpRequest × List Event) (val : String) =>
          (st.1.AddCookie (Cookie.mk name val), st.2 ++ [Event.addCookie (Cookie.mk name val)]))
          (req, tr)
        = ((vals.map (Cookie.mk name)).foldl HttpRequest.AddCookie req,
            tr ++ (vals.map (Cookie.mk name)).map Event.addCookie) := by
    intro name vals
    induction vals with
    | nil => intro req tr; simp
    | cons v rest ih =>
      intro req tr
      rw [List.foldl_cons, ih]
      simp
  induction l generalizing req tr with
  | nil => simp [cookiesOf]
  | cons nv rest ih =>
    rw [List.foldl_cons, inner, ih]
    simp [cookiesOf, List.flatMap_cons, List.foldl_append]

theorem intercalate_go_foldl (l : List Cookie) (acc : String) (hacc : acc ≠ "") :
    l.foldl
        (fun (acc : String) (x : Cookie) =>
          if acc ≠ "" then acc ++ "; " ++ cookieText x else cookieText x)
        acc
      = String.intercalate.go acc "; " (l.map cookieText) := by
  induction l generalizing acc with
  | nil => simp [String.intercalate.go]
  | cons x rest ih =>
    have hne : acc ++ "; " ++ cookieText x ≠ "" := by
      intro h
      have := congrArg String.data h
      simp at this
    rw [List.foldl_cons, if_pos hacc, ih _ hne]
    simp [String.intercalate.go]

theorem cookieText_ne_empty (c : Cookie) : cookieText c ≠ "" := by
  intro h
  have := congrArg String.data h
  simp [cookieText] at this

theorem cookie_header_text (cs : List Cookie) (c : Cookie) (pre : String)
    (hplain : ∀ x ∈ c :: cs, isCookieNameValid x.Name = true ∧ isPlainCookieValue x.Value = true) :
    (c :: cs).foldl
        (fun (acc : String) (x : Cookie) =>
          if acc ≠ "" then
            acc ++ "; " ++ (sanitizeCookieName x.Name ++ "=" ++ sanitizeCookieValue x.Value)
          else sanitizeCookieName x.Name ++ "=" ++ sanitizeCookieValue x.Value)
        pre
      = String.intercalate "; "
          ((if pre = "" then [] else [pre]) ++ (c :: cs).map cookieText) := by
  have hsame : ∀ (l : List Cookie) (acc : String),
      (∀ x ∈ l, isCookieNameValid x.Name = true ∧ isPlainCookieValue x.Value = true) →
      l.foldl
          (fun (acc : String) (x : Cookie) =>
            if acc ≠ "" then
              acc ++ "; " ++ (sanitizeCookieName x.Name ++ "=" ++ sanitizeCookieValue x.Value)
            else sanitizeCookieName x.Name ++ "=" ++ sanitizeCookieValue x.Value)
          acc
        = l.foldl
          (fun (acc : String) (x : Cookie) =>
            if acc ≠ "" then acc ++ "; " ++ cookieText x else cookieText x)
          acc := by
    intro l
    induction l with
    | nil => intro acc _; rfl
    | cons x rest ih =>
      intro acc hx
      have h1 := hx x (List.mem_cons_self x rest)
      rw [List.foldl_cons, List.foldl_cons,
        sanitizeCookieName_of_valid x.Name h1.1, sanitizeCookieValue_of_plain x.Value h1.2]
      exact ih _ (fun y hy => hx y (List.mem_cons_of_mem x hy))
  rw [hsame (c :: cs) pre hplain]
  by_cases hpre : pre = ""
  · subst hpre
    rw [List.foldl_cons]
    simp only [ne_eq, not_true_eq_false, if_false, if_true, List.nil_append, List.map_cons]
    rw [intercalate_go_foldl cs _ (cookieText_ne_empty c)]
    rfl
  · rw [intercalate_go_foldl (c :: cs) pre hpre]
    simp only [hpre, if_false, List.singleton_append]
    rfl

theorem append_cons_inj (x : Char) (l1 l2 r1 r2 : List Char) (h1 : x ∉ l1) (h2 : x ∉ l2)
    (h : l1 ++ x :: r1 = l2 ++ x :: r2) : l1 = l2 ∧ r1 = r2 := by
  induction l1 generalizing l2 with
  | nil =>
    cases l2 with
    | nil => simpa using h
    | cons b l2 =>
      simp only [List.nil_append, List.cons_append, List.cons.injEq] at h
      exact absurd (h.1 ▸ List.mem_cons_self b l2) h2
  | cons a l1 ih =>
    cases l2 with
    | nil =>
      simp only [List.nil_append, List.cons_append, List.cons.injEq] at h
      exact absurd (h.1 ▸ List.mem_cons_self a l1) h1
    | cons b l2 =>
      simp only [List.cons_append, List.cons.injEq] at h
      have := ih l2 (fun hh => h1 (List.mem_cons_of_mem a hh))
        (fun hh => h2 (List.mem_cons_of_mem b hh)) h.2
      exact ⟨by rw [h.1, this.1], this.2⟩

theorem cookieText_inj (a b : Cookie) (ha : '=' ∉ a.Name.data) (hb : '=' ∉ b.Name.data)
    (h : cookieText a = cookieText b) : a = b := by
  have hd := congrArg String.data h
  simp only [cookieText, String.data_append] at hd
  have hd1 : a.Name.data ++ '=' :: a.Value.data = b.Name.data ++ '=' :: b.Value.data := by
    simpa using hd
  have := append_cons_inj '=' _ _ _ _ ha hb hd1
  cases a
  cases b
  simp only [Cookie.mk.injEq]
  exact ⟨String.ext this.1, String.ext this.2⟩

theorem count_cookieText (cs : List Cookie) (c : Cookie) (hc : '=' ∉ c.Name.data)
    (hcs : ∀ x ∈ cs, '=' ∉ x.Name.data) :
    (cs.map cookieText).count (cookieText c) = cs.count c := by
  induction cs with
  | nil => simp
  | cons x rest ih =>
    have hx := hcs x (List.mem_cons_self x rest)
    have hrest := ih (fun y hy => hcs y (List.mem_cons_of_mem x hy))
    by_cases hxc : x = c
    · subst hxc
      simp [hrest]
    · have hne : cookieText x ≠ cookieText c := fun hh => hxc (cookieText_inj x c hx hc hh)
      simp [List.count_cons, hrest, hxc, hne]

theorem count_cookie_values (m : GoMap (List String)) (n v : String) (hw : m.WF) :
    (cookiesOf m).count (Cookie.mk n v) = (m.get [] n).count v := by
  induction m with
  | nil => simp [cookiesOf, GoMap.get, GoMap.get?]
  | cons e rest ih =>
    obtain ⟨k, vs⟩ := e
    have hc : k ∉ GoMap.keys rest ∧ GoMap.WF rest := by
      simpa [GoMap.WF, GoMap.keys] using hw
    have hinj : Function.Injective (Cookie.mk k) := by
      intro a b hab
      injection hab
    have ih1 : (rest.flatMap (fun nv => nv.2.map (Cookie.mk nv.1))).count (Cookie.mk n v)
        = (GoMap.get [] rest n).count v := ih hc.2
    by_cases h : k = n
    · subst h
      have hnone : GoMap.get? rest k = none := by
        have := (GoMap.mem_keys_iff rest k).not.mp hc.1
        simpa using this
      have hrest : (rest.flatMap (fun nv => nv.2.map (Cookie.mk nv.1))).count (Cookie.mk k v) = 0 := by
        rw [ih1]
        simp [GoMap.get, hnone]
      simp only [cookiesOf, List.flatMap_cons, List.count_append, hrest, Nat.add_zero]
      rw [List.count_map_of_injective vs (Cookie.mk k) hinj]
      simp [GoMap.get, GoMap.get?]
    · have hzero : (vs.map (Cookie.mk k)).count (Cookie.mk n v) = 0 := by
        rw [List.count_eq_zero]
        intro hmem
        obtain ⟨x, _, hx⟩ := List.mem_map.mp hmem
        injection hx with hk _
        exact h hk
      simp only [cookiesOf, List.flatMap_cons, List.count_append, hzero, Nat.zero_add]
      rw [ih1]
      simp [GoMap.get, GoMap.get?, h]

theorem send_of_accepted (env : Env) (r : Request) (handlers : List HandlerFunc)
    (hh : env.handlePanics r.router (Route.mk r.method (r.paths env).1 handlers) = false)
    (hok : env.newRequest r.method ((r.paths env).2 ++ "?" ++ env.encode r.query) r.body = none) :
    r.Send env handlers
      = { panicked := false,
          w := some (env.serveHTTP (r.router ++ [Route.mk r.method (r.paths env).1 handlers])
            ((cookiesOf (env.rangeCookies r.cookies)).foldl HttpRequest.AddCookie
              { Method := r.method, URL := (r.paths env).2 ++ "?" ++ env.encode r.query,
                Body := r.body, Header := r.headers })),
          err := none,
          router := r.router ++ [Route.mk r.method (r.paths env).1 handlers],
          headers := ((cookiesOf (env.rangeCookies r.cookies)).foldl HttpRequest.AddCookie
              { Method := r.method, URL := (r.paths env).2 ++ "?" ++ env.encode r.query,
                Body := r.body, Header := r.headers }).Header,
          trace := [Event.handle r.method (r.paths env).1 handlers,
              Event.newRequest r.method ((r.paths env).2 ++ "?" ++ env.encode r.query) r.body]
            ++ (cookiesOf (env.rangeCookies r.cookies)).map Event.addCookie
            ++ [Event.serveHTTP
              ((cookiesOf (env.rangeCookies r.cookies)).foldl HttpRequest.AddCookie
                { Method := r.method, URL := (r.paths env).2 ++ "?" ++ env.encode r.query,
                  Body := r.body, Header := r.headers })] } := by
  simp only [Request.Send, hh, hok, send_cookie_loop, Bool.false_eq_true, if_false]

/-- C9, as stated, fails: for the cookie `session` with the value `a;b`
the one `AddCookie` call drops the semicolon, and the request that is served
carries the cookie `session=ab`, not a cookie with the configured value. -/
theorem cookie_value_with_semicolon_counterexample :
    (NewRequest.WithCookie "session" "a;b").cookies = [("session", ["a;b"])]
    ∧ ((NewRequest.WithCookie "session" "a;b").Send sampleEnv [HandlerFunc.mk 0]).trace
      = [Event.handle "GET" "/" [HandlerFunc.mk 0], Event.newRequest "GET" "/?" none,
          Event.addCookie (Cookie.mk "session" "a;b"),
          Event.serveHTTP
            { Method := "GET", URL := "/?", Body := none,
              Header := [("Cookie", ["session=ab"])] }]
    ∧ ((NewRequest.WithCookie "session" "a;b").Send sampleEnv [HandlerFunc.mk 0]).headers
      = [("Cookie", ["session=ab"])] := by
  decide

/-- C9, amended: `WithCookie name contents` appends `contents` at the end of
the values stored for `name` and touches no other name.  On a builder whose
cookie map is well formed (as it is after any run of `WithCookie` calls on a
fresh builder), whose cookie names are valid cookie names and whose cookie
values are plain, when `router.Handle` does not panic and `http.NewRequest`
accepts the method and the URL, `Send` returns the recorder and no error
after one `AddCookie` call per configured value under its name, in the order
of enumeration, and the request served carries them in its `Cookie` header:
the texts `name=value`, joined by `"; "`, after the `Cookie` value configured
as a header if there is one; each text occurs as many times as its value
occurs among the values configured for its name. -/
theorem send_adds_one_cookie_per_plain_value (env : Env) (r : Request)
    (handlers : List HandlerFunc) (name contents : String)
    (hfair : env.Fair) (hwf : r.cookies.WF)
    (hplain : ∀ c ∈ cookiesOf r.cookies,
      isCookieNameValid c.Name = true ∧ isPlainCookieValue c.Value = true)
    (hhandle : env.handlePanics r.router (Route.mk r.method (r.paths env).1 handlers) = false)
    (hok : env.newRequest r.method ((r.paths env).2 ++ "?" ++ env.encode r.query) r.body = none) :
    (r.WithCookie name contents).cookies.get [] name = r.cookies.get [] name ++ [contents]
    ∧ (∀ other, other ≠ name →
        (r.WithCookie name contents).cookies.get? other = r.cookies.get? other)
    ∧ (r.WithCookie name contents).cookies.WF
    ∧ (∀ calls : List (String × String),
        (calls.foldl (fun acc c => acc.WithCookie c.1 c.2) NewRequest).cookies.WF
        ∧ ∀ k, (calls.foldl (fun acc c => acc.WithCookie c.1 c.2) NewRequest).cookies.get [] k
            = (calls.filter (fun c => decide (c.1 = k))).map Prod.snd)
    ∧ ∃ req : HttpRequest,
        (r.Send env handlers).trace.getLast? = some (Event.serveHTTP req)
        ∧ (r.Send env handlers).panicked = false
        ∧ (r.Send env handlers).w = some (env.serveHTTP (r.Send env handlers).router req)
        ∧ (r.Send env handlers).err = none
        ∧ (r.Send env handlers).headers = req.Header
        ∧ (r.Send env handlers).trace.filterMap
            (fun ev => match ev with
              | Event.addCookie c => some c
              | _ => none) = cookiesOf (env.rangeCookies r.cookies)
        ∧ (cookiesOf (env.rangeCookies r.cookies)).Perm (cookiesOf r.cookies)
        ∧ (∀ n v, (cookiesOf (env.rangeCookies r.cookies)).count (Cookie.mk n v)
            = (r.cookies.get [] n).count v)
        ∧ (cookiesOf r.cookies = [] → req.Header = r.headers)
        ∧ (cookiesOf r.cookies ≠ [] →
            req.Header = Header.Set r.headers "Cookie"
              (String.intercalate "; "
                ((if Header.Get r.headers "Cookie" = "" then []
                  else [Header.Get r.headers "Cookie"])
                  ++ (cookiesOf (env.rangeCookies r.cookies)).map cookieText)))
        ∧ (∀ n v, isCookieNameValid n = true →
            ((cookiesOf (env.rangeCookies r.cookies)).map cookieText).count (n ++ "=" ++ v)
              = (r.cookies.get [] n).count v) := by
  refine ⟨GoMap.get_appendAt_same r.cookies name contents, ?_,
    GoMap.WF_set r.cookies name _ hwf, ?_, ?_⟩
  · intro other hne
    exact GoMap.get?_appendAt_other r.cookies name other contents hne
  · intro calls
    rw [cookies_foldl_withCookie]
    refine ⟨GoMap.WF_appendAll calls _ GoMap.WF_nil, ?_⟩
    intro k
    rw [GoMap.get_appendAll]
    simp [NewRequest, GoMap.get, GoMap.get?]
  · have hperm : (cookiesOf (env.rangeCookies r.cookies)).Perm (cookiesOf r.cookies) :=
      List.Perm.flatMap_right _ (hfair.2 r.cookies)
    have hplain1 : ∀ c ∈ cookiesOf (env.rangeCookies r.cookies),
        isCookieNameValid c.Name = true ∧ isPlainCookieValue c.Value = true :=
      fun c hc => hplain c (hperm.mem_iff.mp hc)
    have hcount : ∀ n v, (cookiesOf (env.rangeCookies r.cookies)).count (Cookie.mk n v)
        = (r.cookies.get [] n).count v := by
      intro n v
      rw [hperm.count_eq, count_cookie_values r.cookies n v hwf]
    refine ⟨(cookiesOf (env.rangeCookies r.cookies)).foldl HttpRequest.AddCookie
        { Method := r.method, URL := (r.paths env).2 ++ "?" ++ env.encode r.query,
          Body := r.body, Header := r.headers }, ?_, ?_, ?_, ?_, ?_, ?_, hperm, hcount, ?_, ?_, ?_⟩
    · rw [send_of_accepted env r handlers hhandle hok]
      exact List.getLast?_concat _
    · rw [send_of_accepted env r handlers hhandle hok]
    · rw [send_of_accepted env r handlers hhandle hok]
    · rw [send_of_accepted env r handlers hhandle hok]
    · rw [send_of_accepted env r handlers hhandle hok]
    · rw [send_of_accepted env r handlers hhandle hok]
      simp [List.filterMap_append, List.filterMap_map, Function.comp_def]
    · intro hnil
      have : cookiesOf (env.rangeCookies r.cookies) = [] := List.Perm.eq_nil (hnil ▸ hperm)
      rw [this]
      rfl
    · intro hne
      cases hcs : cookiesOf (env.rangeCookies r.cookies) with
      | nil =>
        exact absurd (List.Perm.nil_eq (hcs ▸ hperm)).symm hne
      | cons c cs =>
        rw [(addCookie_foldl cs c _).1]
        rw [cookie_header_text cs c _ (fun x hx => hplain1 x (hcs ▸ hx))]
    · intro n v hn
      have hc : '=' ∉ (Cookie.mk n v).Name.data := name_without_equals n hn
      have hcs : ∀ x ∈ cookiesOf (env.rangeCookies r.cookies), '=' ∉ x.Name.data :=
        fun x hx => name_without_equals x.Name (hplain1 x hx).1
      have := count_cookieText _ (Cookie.mk n v) hc hcs
      rw [← hcount n v, ← this]
      rfl

/-- C9, amended, at a concrete input: the cookie `session` with the values
`a` and `b`, sent through the sample environment. -/
theorem send_adds_one_cookie_per_plain_value_witness :
    ((NewRequest.WithCookie "session" "a").WithCookie "session" "b").cookies
        = [("session", ["a", "b"])]
    ∧ ((NewRequest.WithCookie "session" "a").WithCookie "session" "b").Send sampleEnv
        [HandlerFunc.mk 0]
      = { panicked := false,
          w := some (ResponseRecorder.mk 200 []),
          err := none,
          router := [Route.mk "GET" "/" [HandlerFunc.mk 0]],
          headers := [("Cookie", ["session=a; session=b"])],
          trace := [Event.handle "GET" "/" [HandlerFunc.mk 0], Event.newRequest "GET" "/?" none,
            Event.addCookie (Cookie.mk "session" "a"),
            Event.addCookie (Cookie.mk "session" "b"),
            Event.serveHTTP
              { Method := "GET", URL := "/?", Body := none,
                Header := [("Cookie", ["session=a; session=b"])] }] }
    ∧ ∃ req : HttpRequest,
        (((NewRequest.WithCookie "session" "a").WithCookie "session" "b").Send sampleEnv
          [HandlerFunc.mk 0]).trace.getLast? = some (Event.serveHTTP req)
        ∧ req.Header = Header.Set [] "Cookie"
            (String.intercalate "; " ([] ++ [cookieText (Cookie.mk "session" "a"),
              cookieText (Cookie.mk "session" "b")])) := by
  refine ⟨by decide, by decide, ?_⟩
  obtain ⟨req, h1, _, _, _, _, _, _, _, _, h10, _⟩ :=
    (send_adds_one_cookie_per_plain_value sampleEnv
      ((NewRequest.WithCookie "session" "a").WithCookie "session" "b") [HandlerFunc.mk 0]
      "session" "c" ⟨fun m => List.Perm.refl m, fun m => List.Perm.refl m⟩
      (by decide) (by decide) (by decide) rfl).2.2.2.2
  exact ⟨req, h1, h10 (by decide)⟩

/-- C1 fails on the code: `Send` never reads the deferred error.  A builder
with a recorded error is sent exactly like the same builder without one:
`router.Handle` is called first, and unless it panics the route is
registered and `http.NewRequest` is called; after `WithJSON` on a channel on
a fresh builder `Send` registers `GET /`, builds and serves `GET /?` with no
body and returns the recorder with a nil error. -/
theorem send_ignores_deferred_error (env : Env) (r : Request) (e : Error)
    (handlers : List HandlerFunc) :
    Request.Send env { r with err := some e } handlers = Request.Send env r handlers
    ∧ (Request.Send env { r with err := some e } handlers).trace.head?
        = some (Event.handle r.method (r.paths env).1 handlers)
    ∧ (env.handlePanics r.router (Route.mk r.method (r.paths env).1 handlers) = false →
        (Request.Send env { r with err := some e } handlers).trace.take 2
          = [Event.handle r.method (r.paths env).1 handlers,
              Event.newRequest r.method ((r.paths env).2 ++ "?" ++ env.encode r.query) r.body]
        ∧ (Request.Send env { r with err := some e } handlers).router
          = r.router ++ [Route.mk r.method (r.paths env).1 handlers])
    ∧ (NewRequest.WithJSON sampleMarshal GoValue.channel).err
        = some "json: unsupported type: chan int"
    ∧ (NewRequest.WithJSON sampleMarshal GoValue.channel).Send sampleEnv [HandlerFunc.mk 0]
        = { panicked := false,
            w := some (ResponseRecorder.mk 200 []),
            err := none,
            router := [Route.mk "GET" "/" [HandlerFunc.mk 0]],
            headers := [],
            trace := [Event.handle "GET" "/" [HandlerFunc.mk 0],
              Event.newRequest "GET" "/?" none,
              Event.serveHTTP
                { Method := "GET", URL := "/?", Body := none, Header := [] }] } := by
  have hsame : Request.Send env { r with err := some e } handlers = Request.Send env r handlers :=
    rfl
  refine ⟨rfl, ?_, ?_, rfl, by decide⟩
  · rw [hsame]
    cases hh : env.handlePanics r.router (Route.mk r.method (r.paths env).1 handlers) with
    | true => simp [Request.Send, hh]
    | false =>
      cases h : env.newRequest r.method ((r.paths env).2 ++ "?" ++ env.encode r.query) r.body with
      | some err => simp [Request.Send, hh, h]
      | none =>
        rw [send_of_accepted env r handlers hh h]
        simp
  · intro hh
    rw [hsame]
    cases h : env.newRequest r.method ((r.paths env).2 ++ "?" ++ env.encode r.query) r.body with
    | some err => simp [Request.Send, hh, h]
    | none =>
      rw [send_of_accepted env r handlers hh h]
      simp

end Olives
